import Mathlib

/-!
Verification of the Byte Explorer analytical engine
(src/src/components/ByteExplorer.jsx, with a legacy variant in src/unnamed/part_000).

The JavaScript source is shallowly embedded: strings are lists of characters,
JS numbers holding byte values are naturals, results of the 32-bit shift
operator are integers with explicit wrap-around, and the floating-point
statistics (mean, standard deviation, entropy, correlation) are idealised as
exact real arithmetic.  React state is a `SessionState` record and each
handler (`processData`, `toggleByte`, `createGroup`, `removeGroup`) is a
state-transition function.
-/

namespace ByteExplorer

/-- ECMAScript ToInt32: reduce an integer modulo 2^32 into [-2^31, 2^31). -/
def jsToInt32 (x : ℤ) : ℤ :=
  let r := x % 4294967296
  if r < 2147483648 then r else r - 4294967296

/-- ECMAScript left shift on an already-converted operand: the shift count is
taken modulo 32 and the result is wrapped to a signed 32-bit integer.
Models the expression `val << shift` in `combineBytes`. -/
def jsShl (v : ℤ) (s : ℕ) : ℤ :=
  jsToInt32 (jsToInt32 v * 2 ^ (s % 32))

/-- Character class of the validation regex [0-9A-Fa-f]. -/
def isHexDigitB (c : Char) : Bool :=
  (48 ≤ c.toNat && c.toNat ≤ 57) || (65 ≤ c.toNat && c.toNat ≤ 70) ||
    (97 ≤ c.toNat && c.toNat ≤ 102)

/-- Numeric value of one hexadecimal digit (0 for non-digits, unreachable). -/
def hexDigitVal (c : Char) : ℕ :=
  if 48 ≤ c.toNat ∧ c.toNat ≤ 57 then c.toNat - 48
  else if 65 ≤ c.toNat ∧ c.toNat ≤ 70 then c.toNat - 55
  else if 97 ≤ c.toNat ∧ c.toNat ≤ 102 then c.toNat - 87
  else 0

/-- JS `parseInt(str, 16)`: skip leading whitespace, read the longest prefix
of hexadecimal digits, return NaN (here `none`) if that prefix is empty.
The sign and 0x-prefix handling of parseInt is not modelled: the slices fed
to it by `processData` contain only hex digits and whitespace. -/
def jsParseIntHex (cs : List Char) : Option ℕ :=
  let ds := (cs.dropWhile Char.isWhitespace).takeWhile isHexDigitB
  if ds.isEmpty then none
  else some (ds.foldl (fun a c => 16 * a + hexDigitVal c) 0)

/-- The slicing loop `for (i = 0; i < line.length; i += 2) line.slice(i, i+2)`:
split a character list into consecutive chunks of two (a final odd chunk has
one character). -/
def chunk2 : List Char → List (List Char)
  | [] => []
  | [c] => [[c]]
  | a :: b :: t => [a, b] :: chunk2 t

/-- Decode one line of input into its byte values, `none` marking NaN
(produced by `parseInt` on a whitespace-only slice). -/
def decodeLine (cs : List Char) : List (Option ℕ) :=
  (chunk2 cs).map jsParseIntHex

/-- JS `String.prototype.trim` restricted to ASCII whitespace. -/
def jsTrim (cs : List Char) : List Char :=
  (((cs.dropWhile Char.isWhitespace).reverse).dropWhile Char.isWhitespace).reverse

/-- JS `str.split('\n')`: always yields at least one (possibly empty) piece. -/
def splitOnNl : List Char → List (List Char)
  | [] => [[]]
  | c :: t =>
    if c = '\n' then [] :: splitOnNl t
    else
      match splitOnNl t with
      | [] => [[c]]
      | h :: r => (c :: h) :: r

/-- The regex test `/^[0-9A-Fa-f]+$/.test(s)`: nonempty and all-hex. -/
def isHexLineB (cs : List Char) : Bool :=
  !cs.isEmpty && cs.all isHexDigitB

/-- The validation `lines.every(line => line.trim().length === firstLineLength
&& /^[0-9A-Fa-f]+$/.test(line.trim()))` where `firstLineLength` is the RAW
length of the first line. -/
def linesValidB (lines : List (List Char)) : Bool :=
  lines.all fun line =>
    ((jsTrim line).length == (lines.headD []).length) && isHexLineB (jsTrim line)

/-- Recursion underlying `combineBytes`: `byteValues.reduce((acc, val, idx) =>
acc + (val << (8 * (byteValues.length - 1 - idx))), 0)`. -/
def combineAux (len : ℕ) : ℕ → List ℤ → ℤ
  | _, [] => 0
  | idx, v :: t => jsShl v (8 * (len - 1 - idx)) + combineAux len (idx + 1) t

/-- `combineBytes` from the source: big-endian composition of byte values
using the JS 32-bit `<<` operator. -/
def combineBytes (l : List ℤ) : ℤ :=
  combineAux l.length 0 l

/-- `combineBytes` applied to record fields that may be missing or NaN
(`undefined << s` and `NaN << s` are both `0 << s` after ToInt32). -/
def combineBytesO (l : List (Option ℕ)) : ℤ :=
  combineBytes (l.map fun v => ((v.getD 0 : ℕ) : ℤ))

/-- Reference definition following the spec's words: derived value =
Σ over position p of values[p] * 2^(8*(len-1-p)), with exact integers
(the first entry is the most significant byte).  Used to compare the
source's `combineBytes` against the specified formula. -/
def specCombineAux (len : ℕ) : ℕ → List ℤ → ℤ
  | _, [] => 0
  | idx, v :: t => v * 2 ^ (8 * (len - 1 - idx)) + specCombineAux len (idx + 1) t

/-- Spec-side big-endian composition (see `specCombineAux`). -/
def specCombine (l : List ℤ) : ℤ :=
  specCombineAux l.length 0 l

/-- Per-column statistics; `none` components model the NaN produced when a
column contains an undefined or NaN entry.  Floats are idealised as reals. -/
structure ColStats where
  cmin : Option ℕ
  cmax : Option ℕ
  cmean : Option ℝ
  cstd : Option ℝ

/-- Statistics of one byte column, as computed in `processData`:
min, max, mean, and population standard deviation. -/
noncomputable def mkColStats (vals : List (Option ℕ)) : ColStats :=
  if vals.all Option.isSome then
    let ns := vals.reduceOption
    let mean : ℝ := (ns.sum : ℝ) / ns.length
    { cmin := ns.min?
      cmax := ns.max?
      cmean := some mean
      cstd := some (Real.sqrt (((ns.map fun v => ((v : ℝ) - mean) ^ 2).sum) / ns.length)) }
  else
    { cmin := none, cmax := none, cmean := none, cstd := none }

/-- One decoded record: `index`, the `byte0..byteN` fields (`none` = NaN),
and the dynamically attached `group<id>` fields as an association list. -/
structure RecordJS where
  index : ℕ
  bytes : List (Option ℕ)
  groupCols : List (ℕ × ℤ)
deriving DecidableEq, Repr

/-- A byte group: `{id, bytes, name}` as built by `createGroup`. -/
structure GroupJS where
  id : ℕ
  bytes : List ℕ
  name : String
deriving DecidableEq, Repr

/-- The React component state relevant to the analytical engine. -/
structure SessionState where
  data : List RecordJS
  selectedBytes : Finset ℕ
  byteGroups : List GroupJS
  byteStats : List (ℕ × ColStats)
  error : Option String
  numBytesPerLine : ℕ
  groupingMode : Bool
  currentGroup : List ℕ

/-- The initial component state. -/
def initState : SessionState :=
  { data := [], selectedBytes := ∅, byteGroups := [], byteStats := [],
    error := none, numBytesPerLine := 0, groupingMode := false, currentGroup := [] }

/-- Error message of the dead zero-lines branch. -/
def noDataMsg : String := "No data provided"

/-- Error message of the validation failure branch. -/
def invalidMsg : String :=
  "Invalid data format. All lines must be hex strings of the same length."

/-- `lines.map((line, index) => ...)`: build records carrying their 0-based
line position. -/
def mkRecords (idx : ℕ) : List (List Char) → List RecordJS
  | [] => []
  | l :: t => ⟨idx, decodeLine l, []⟩ :: mkRecords (idx + 1) t

/-- `processData` from src/src/components/ByteExplorer.jsx: trim the whole
input, split on newlines, validate, decode every line, compute per-column
statistics, and replace the matrix; on validation failure only the error
message changes.  Existing groups are neither recomputed nor re-validated. -/
noncomputable def processData (input : List Char) (st : SessionState) : SessionState :=
  let lines := splitOnNl (jsTrim input)
  if lines.length = 0 then { st with error := some noDataMsg }
  else if linesValidB lines then
    let processed := mkRecords 0 lines
    let numBytes := ((processed.headD ⟨0, [], []⟩).bytes).length
    { st with
      data := processed
      numBytesPerLine := numBytes
      byteStats := (List.range numBytes).map fun i =>
        (i, mkColStats (processed.map fun r => r.bytes.getD i none))
      error := none }
  else { st with error := some invalidMsg }

/-- The grouping-mode branch of `toggleByte`: remove an already-present
index, otherwise append and sort ascending
(`[...currentGroup, byteNum].sort((a, b) => a - b)`). -/
def toggleDraft (b : ℕ) (l : List ℕ) : List ℕ :=
  if b ∈ l then l.filter (fun x => x != b)
  else List.insertionSort (· ≤ ·) (l ++ [b])

/-- `toggleByte`: edits the group draft when grouping mode is on, otherwise
toggles membership in the selected-bytes set. -/
def toggleByte (b : ℕ) (st : SessionState) : SessionState :=
  if st.groupingMode then
    { st with currentGroup := toggleDraft b st.currentGroup }
  else if b ∈ st.selectedBytes then
    { st with selectedBytes := st.selectedBytes.erase b }
  else
    { st with selectedBytes := insert b st.selectedBytes }

/-- JS object update `{...sample, [key]: v}`: overwrite an existing key in
place, otherwise append the new key. -/
def upsert (k : ℕ) (v : ℤ) (l : List (ℕ × ℤ)) : List (ℕ × ℤ) :=
  if l.any (fun p => p.1 == k) then
    l.map fun p => if p.1 = k then (k, v) else p
  else l ++ [(k, v)]

/-- `createGroup`: when the draft is nonempty, append a group whose id is the
CURRENT length of the group list, attach its combined value to every record,
clear the draft and leave grouping mode; otherwise do nothing. -/
def createGroup (st : SessionState) : SessionState :=
  if st.currentGroup ≠ [] then
    let newGroup : GroupJS :=
      ⟨st.byteGroups.length, st.currentGroup,
        "Group " ++ toString (st.byteGroups.length + 1)⟩
    let updatedData := st.data.map fun r =>
      { r with groupCols :=
          (upsert newGroup.id
            (combineBytesO (newGroup.bytes.map fun b => r.bytes.getD b none))
            r.groupCols) }
    { st with byteGroups := st.byteGroups ++ [newGroup], data := updatedData,
              currentGroup := [], groupingMode := false }
  else st

/-- `removeGroup`: drop the group and delete its derived column from every
record. -/
def removeGroup (gid : ℕ) (st : SessionState) : SessionState :=
  { st with
    byteGroups := st.byteGroups.filter (fun g => g.id != gid),
    data := st.data.map fun r =>
      { r with groupCols := r.groupCols.filter (fun p => p.1 != gid) } }

/-- The grouping-mode button: `setGroupingMode(!groupingMode)`. -/
def toggleGroupingMode (st : SessionState) : SessionState :=
  { st with groupingMode := !st.groupingMode }

/-- A sequence of byte toggles applied left to right. -/
def applyToggles (s : List ℕ) (st : SessionState) : SessionState :=
  s.foldl (fun acc b => toggleByte b acc) st

/-- A sequence of draft toggles on the index list itself. -/
def toggleSeq (s : List ℕ) (l : List ℕ) : List ℕ :=
  s.foldl (fun acc b => toggleDraft b acc) l

/-- `calculateEntropy` from the source: Shannon entropy of the empirical
distribution of the values, with `Math.log2` idealised as the exact
base-2 logarithm. -/
noncomputable def calculateEntropy (values : List ℕ) : ℝ :=
  -((values.dedup.map fun v =>
      ((values.count v : ℝ) / values.length) *
        Real.logb 2 ((values.count v : ℝ) / values.length)).sum)

/-- `_.mean`: sum divided by length. -/
noncomputable def listMean (l : List ℝ) : ℝ := l.sum / l.length

/-- Mean deviations of a column. -/
noncomputable def devs (l : List ℝ) : List ℝ := l.map fun x => x - listMean l

/-- Sum of squared deviations (one factor under the square root in
`calculateCorrelation`). -/
noncomputable def devSumSq (l : List ℝ) : ℝ := ((devs l).map fun x => x * x).sum

/-- The numerator `deviation1.reduce((sum, _, i) => sum + deviation1[i] *
deviation2[i], 0)` for equal-length columns. -/
noncomputable def covSum (a1 a2 : List ℝ) : ℝ :=
  (List.zipWith (fun x y => x * y) (devs a1) (devs a2)).sum

/-- `calculateCorrelation` from the source: Pearson coefficient with an
exact-zero fallback when the denominator is zero. -/
noncomputable def calculateCorrelation (array1 array2 : List ℝ) : ℝ :=
  let s := covSum array1 array2
  let sqrtProduct := Real.sqrt (devSumSq array1 * devSumSq array2)
  if sqrtProduct = 0 then 0 else s / sqrtProduct

/-- Strictly increasing (sorted ascending, duplicate-free) index lists. -/
def strictSorted (l : List ℕ) : Prop := List.Sorted (· < ·) l

/-- The implicit session invariant: the grouping draft and every committed
group's byte-index list is strictly increasing. -/
def sessionInv (st : SessionState) : Prop :=
  strictSorted st.currentGroup ∧ ∀ g ∈ st.byteGroups, strictSorted g.bytes

/-- Group ids are exactly 0..n-1 in list order (true until a removal). -/
def idsCanonical (st : SessionState) : Prop :=
  st.byteGroups.map (fun g => g.id) = List.range st.byteGroups.length

end ByteExplorer

namespace ByteExplorer

/-! ### Concrete states used by counterexamples and witnesses -/

/-- A decoded session holding one two-byte record 0x12 0x34, in grouping mode. -/
def stC8 : SessionState :=
  { initState with
    data := [⟨0, [some 18, some 52], []⟩]
    numBytesPerLine := 2
    groupingMode := true }

/-- A decoded session with one four-byte record 0x80 00 00 00 and a full
four-byte group draft. -/
def stC1 : SessionState :=
  { initState with
    data := [⟨0, [some 128, some 0, some 0, some 0], []⟩]
    numBytesPerLine := 4
    currentGroup := [0, 1, 2, 3]
    groupingMode := true }

/-- A decoded session with one committed group over byte indices 0 and 1. -/
def stG : SessionState :=
  { initState with
    data := [⟨0, [some 18, some 52], [(0, 4660)]⟩]
    byteGroups := [⟨0, [0, 1], "Group 1"⟩]
    numBytesPerLine := 2 }

/-- The operation sequence create, create, remove the first, create again. -/
def cexSeq : SessionState :=
  createGroup (toggleByte 0 (toggleGroupingMode (removeGroup 0 (createGroup
    (toggleByte 1 (toggleGroupingMode (createGroup (toggleByte 0
      (toggleGroupingMode initState)))))))))

/-- A session with one canonical group and a nonempty draft. -/
def stW7 : SessionState :=
  { initState with
    byteGroups := [⟨0, [0], "Group 1"⟩]
    currentGroup := [1]
    groupingMode := true }

/-- A fresh session already in grouping mode. -/
def stW10 : SessionState :=
  { initState with groupingMode := true }

/-! ### Claim theorems (closed statements) -/

/-- C1 (counterexample): a group over indices [0,1,2,3] applied to the record
with bytes 0x80 00 00 00 yields the derived value -2147483648 (the JS 32-bit
signed shift wraps), not the value 2^31 = 2147483648 demanded by the spec
formula, so the derived value is neither the stated sum nor within
[0, 2^(8*len)-1]. -/
theorem combine_group_wraps_cex :
    (createGroup stC1).data.map (fun r => r.groupCols) = [[(0, -2147483648)]]
  ∧ specCombine [128, 0, 0, 0] = 2147483648
  ∧ ((-2147483648 : ℤ) ≠ 2147483648) := by decide

/-- C2 (counterexample): for input "AB\n CD" the second line " CD" differs in
character length from the first line (3 vs 2) and contains a non-hex blank,
yet decode succeeds (no MalformedInput) and the matrix is replaced, because
validation tests the TRIMMED line while length is taken from the raw first
line. -/
theorem decode_malformed_cex :
    (" CD".toList.length ≠ "AB".toList.length)
  ∧ splitOnNl (jsTrim "AB\n CD".toList) = ["AB".toList, " CD".toList]
  ∧ (processData "AB\n CD".toList initState).error = none
  ∧ (processData "AB\n CD".toList initState).data ≠ initState.data := by decide

/-- C3 (counterexample): decode succeeds on "AB\n CD" but the two records have
1 and 2 byte values respectively while W (numBytesPerLine) is 1: the decoder
decodes the UNtrimmed line, so a leading blank shifts the 2-character slices. -/
theorem decode_ragged_cex :
    (processData "AB\n CD".toList initState).error = none
  ∧ (processData "AB\n CD".toList initState).numBytesPerLine = 1
  ∧ (processData "AB\n CD".toList initState).data.map (fun r => r.bytes.length)
      = [1, 2] := by decide

/-- C6 (counterexample): re-decoding "12" (new width 1) while a group over
indices [0,1] exists succeeds with no error, keeps the group, and attaches NO
recomputed derived column to the new record - there is no
InvalidColumnReference failure and no recompute at all. -/
theorem redecode_no_recompute_cex :
    (processData "12".toList stG).error = none
  ∧ (processData "12".toList stG).byteGroups = [⟨0, [0, 1], "Group 1"⟩]
  ∧ (processData "12".toList stG).data = [⟨0, [some 18], []⟩]
  ∧ (processData "12".toList stG).numBytesPerLine = 1 := by decide

/-- C7 (counterexample): after create, create, remove-first, create, the two
surviving groups both carry id 1: `createGroup` assigns id =
byteGroups.length, so ids are reused after a removal and collide. -/
theorem group_id_reuse_cex :
    cexSeq.byteGroups.map (fun g => g.id) = [1, 1]
  ∧ ¬ (cexSeq.byteGroups.map (fun g => g.id)).Nodup := by decide

/-- C8 (counterexample): toggling byte 1 then byte 0 stores the SORTED list
[0,1], and the committed group's derived value over bytes 0x12 0x34 is
4660 = 0x1234, not the 13330 = 0x3412 the claim requires for assembly order
[1,0]; moreover toggling an already-present index removes it, so duplicate
indices are unreachable. -/
theorem toggle_order_cex :
    (createGroup (toggleByte 0 (toggleByte 1 stC8))).byteGroups.map (fun g => g.bytes)
      = [[0, 1]]
  ∧ (createGroup (toggleByte 0 (toggleByte 1 stC8))).data
      = [⟨0, [some 18, some 52], [(0, 4660)]⟩]
  ∧ (toggleByte 1 (toggleByte 1 stC8)).currentGroup = []
  ∧ ((4660 : ℤ) ≠ 13330) := by decide

/-- C8 (amended): `combineBytes` itself is order-sensitive (values in order
0x12,0x34 give 0x1234 = 4660 and in order 0x34,0x12 give 0x3412 = 13330),
but `toggleByte` keeps the draft sorted ascending, so assembling via toggles
in order [1,0] or [0,1] commits the same group [0,1] with the same derived
column 4660. -/
theorem toggle_order_amended :
    combineBytes [18, 52] = 4660
  ∧ combineBytes [52, 18] = 13330
  ∧ (createGroup (toggleByte 0 (toggleByte 1 stC8))).byteGroups.map (fun g => g.bytes)
      = [[0, 1]]
  ∧ (createGroup (toggleByte 1 (toggleByte 0 stC8))).byteGroups.map (fun g => g.bytes)
      = [[0, 1]]
  ∧ (createGroup (toggleByte 0 (toggleByte 1 stC8))).data
      = (createGroup (toggleByte 1 (toggleByte 0 stC8))).data := by decide

/-- C9 (code bug): on input that is empty after trimming, `split` still yields
one (empty) line, so the zero-lines EmptyInput branch is dead and decode
reports the MalformedInput message instead; only the error field changes. -/
theorem empty_input_malformed :
    (splitOnNl (jsTrim "".toList)).length = 1
  ∧ processData "".toList initState = { initState with error := some invalidMsg }
  ∧ invalidMsg ≠ noDataMsg :=
  ⟨by decide, rfl, by decide⟩

end ByteExplorer

namespace ByteExplorer

/-! ### Helper lemmas -/

/-- JS split always yields at least one line piece. -/
theorem splitOnNl_ne_nil (cs : List Char) : splitOnNl cs ≠ [] := by
  cases cs with
  | nil => simp [splitOnNl]
  | cons c t =>
    simp only [splitOnNl]
    split
    · simp
    · split <;> simp

/-- ToInt32 is the identity on [0, 2^31). -/
theorem jsToInt32_of_lt (x : ℤ) (h0 : 0 ≤ x) (h : x < 2147483648) :
    jsToInt32 x = x := by
  unfold jsToInt32
  rw [Int.emod_eq_of_lt h0 (by omega)]
  simp [h]

/-- The JS shift is the exact power-of-two product while no wrapping occurs. -/
theorem jsShl_small (v : ℤ) (s : ℕ) (hs : s < 32) (h0 : 0 ≤ v)
    (hb : v * 2 ^ s < 2147483648) : jsShl v s = v * 2 ^ s := by
  have h1 : (0:ℤ) < 2 ^ s := pow_pos (by norm_num) s
  have h2 : (1:ℤ) ≤ 2 ^ s := by omega
  have hle : v ≤ v * 2 ^ s := le_mul_of_one_le_right h0 h2
  have hv : v < 2147483648 := by omega
  unfold jsShl
  rw [Nat.mod_eq_of_lt hs, jsToInt32_of_lt v h0 hv,
    jsToInt32_of_lt _ (mul_nonneg h0 (le_of_lt h1)) hb]

/-- Shift by 0 of a byte value. -/
theorem jsShl_b0 (v : ℤ) (h0 : 0 ≤ v) (hb : v ≤ 255) : jsShl v 0 = v := by
  have := jsShl_small v 0 (by norm_num) h0 (by rw [pow_zero]; omega)
  rwa [pow_zero, mul_one] at this

/-- Shift by 8 of a byte value. -/
theorem jsShl_b8 (v : ℤ) (h0 : 0 ≤ v) (hb : v ≤ 255) : jsShl v 8 = v * 256 := by
  have := jsShl_small v 8 (by norm_num) h0
    (by rw [show (2:ℤ) ^ 8 = 256 from by norm_num]; omega)
  rwa [show (2:ℤ) ^ 8 = 256 from by norm_num] at this

/-- Shift by 16 of a byte value. -/
theorem jsShl_b16 (v : ℤ) (h0 : 0 ≤ v) (hb : v ≤ 255) : jsShl v 16 = v * 65536 := by
  have := jsShl_small v 16 (by norm_num) h0
    (by rw [show (2:ℤ) ^ 16 = 65536 from by norm_num]; omega)
  rwa [show (2:ℤ) ^ 16 = 65536 from by norm_num] at this

/-- Every record produced by the decoder carries no group columns. -/
theorem mkRecords_groupCols (i : ℕ) (ls : List (List Char)) :
    ∀ r ∈ mkRecords i ls, r.groupCols = [] := by
  induction ls generalizing i with
  | nil => simp [mkRecords]
  | cons l t ih =>
    intro r hr
    rcases (by simpa [mkRecords] using hr : r = ⟨i, decodeLine l, []⟩ ∨ r ∈ mkRecords (i + 1) t) with
      rfl | hr2
    · rfl
    · exact ih _ _ hr2

end ByteExplorer

namespace ByteExplorer

/-- C2 (amended): validation applies to each line's TRIMMED form - whenever
some trimmed line differs in character length from the raw first line or is
not a nonempty hex string, decode fails with the MalformedInput message and
every other component of the state (matrix, statistics, groups, selection)
is left completely unchanged. -/
theorem decode_malformed_trimmed (input : List Char) (st : SessionState)
    (h : linesValidB (splitOnNl (jsTrim input)) = false) :
    processData input st = { st with error := some invalidMsg } := by
  have hne : splitOnNl (jsTrim input) ≠ [] := splitOnNl_ne_nil _
  simp only [processData]
  split
  · next heq => exact absurd (List.length_eq_zero.mp heq) hne
  · split
    · next hval => rw [h] at hval; cases hval
    · rfl

/-- C2 (witness): input "AB\nC" has a second trimmed line of the wrong
length, so decode reports MalformedInput and changes nothing else. -/
theorem decode_malformed_trimmed_witness :
    processData "AB\nC".toList initState = { initState with error := some invalidMsg } :=
  decode_malformed_trimmed _ _ (by decide)

/-- C6 (amended): on any successful re-decode, existing groups are neither
recomputed nor validated: decode succeeds with no error, the group list is
unchanged, and the records of the new matrix carry no group columns at all
(so a group whose indices exceed the new width persists silently with its
column simply absent; no InvalidColumnReference error exists in the code). -/
theorem redecode_keeps_groups (input : List Char) (st : SessionState)
    (h : linesValidB (splitOnNl (jsTrim input)) = true) :
    (processData input st).error = none
  ∧ (processData input st).byteGroups = st.byteGroups
  ∧ ∀ r ∈ (processData input st).data, r.groupCols = [] := by
  have hne : splitOnNl (jsTrim input) ≠ [] := splitOnNl_ne_nil _
  simp only [processData]
  split
  · next heq => exact absurd (List.length_eq_zero.mp heq) hne
  · exact ⟨rfl, rfl, mkRecords_groupCols 0 _⟩

/-- C6 (witness): re-decoding "12" over a session holding a group on indices
[0,1] succeeds, keeps the group, and leaves all records without group
columns. -/
theorem redecode_keeps_groups_witness :
    (processData "12".toList stG).error = none
  ∧ (processData "12".toList stG).byteGroups = stG.byteGroups
  ∧ ∀ r ∈ (processData "12".toList stG).data, r.groupCols = [] :=
  redecode_keeps_groups _ _ (by decide)

end ByteExplorer

namespace ByteExplorer

/-- C7 (amended): while no group has been removed, the group ids are exactly
0..n-1 in creation order (an invariant preserved by toggling, decoding, mode
switches and group creation), and under that invariant each freshly created
group's id (the current group count) is strictly greater than every existing
id, hence collision-free; after a removal the id (still the post-removal
count) can be reused and collide, as the counterexample shows. -/
theorem group_ids_canonical (st : SessionState) (h : idsCanonical st) :
    idsCanonical (createGroup st)
  ∧ (∀ b, idsCanonical (toggleByte b st))
  ∧ idsCanonical (toggleGroupingMode st)
  ∧ (∀ input, idsCanonical (processData input st))
  ∧ (st.currentGroup ≠ [] →
      (∀ g ∈ st.byteGroups, g.id < st.byteGroups.length)
    ∧ (createGroup st).byteGroups.map (fun g => g.id)
        = List.range (st.byteGroups.length + 1))
    := by
  have hfresh : ∀ g ∈ st.byteGroups, g.id < st.byteGroups.length := by
    intro g hg
    have hmem : g.id ∈ st.byteGroups.map (fun g => g.id) :=
      List.mem_map_of_mem (fun g : GroupJS => g.id) hg
    rw [h] at hmem
    exact List.mem_range.mp hmem
  have hbg : st.currentGroup ≠ [] →
      (createGroup st).byteGroups
        = st.byteGroups ++ [⟨st.byteGroups.length, st.currentGroup,
            "Group " ++ toString (st.byteGroups.length + 1)⟩] := by
    intro hne
    unfold createGroup
    rw [if_pos hne]
  have hcreate : st.currentGroup ≠ [] →
      (createGroup st).byteGroups.map (fun g => g.id)
        = List.range (st.byteGroups.length + 1) := by
    intro hne
    rw [hbg hne, List.map_append, h, List.range_succ]
    rfl
  refine ⟨?_, ?_, ?_, ?_, fun hne => ⟨hfresh, hcreate hne⟩⟩
  · by_cases hne : st.currentGroup = []
    · unfold createGroup
      rw [if_neg (by simp [hne])]
      exact h
    · unfold idsCanonical
      rw [hcreate hne, hbg hne, List.length_append]
      rfl
  · intro b
    unfold toggleByte
    split
    · exact h
    · split
      · exact h
      · exact h
  · exact h
  · intro input
    simp only [processData]
    split
    · exact h
    · split
      · exact h
      · exact h

/-- C7 (witness): in a one-group session with canonical id 0 and a nonempty
draft, committing assigns the fresh id 1, giving id list 0,1. -/
theorem group_ids_canonical_witness :
    idsCanonical (createGroup stW7)
  ∧ (createGroup stW7).byteGroups.map (fun g => g.id) = List.range 2 := by
  have h := group_ids_canonical stW7 (by unfold idsCanonical; decide)
  exact ⟨h.1, (h.2.2.2.2 (by decide)).2⟩

end ByteExplorer

namespace ByteExplorer

/-- C1 (amended): for groups of at most 3 byte positions (so every shifted
term stays below 2^31), the derived value computed by `combineBytes` equals
the spec's big-endian sum with the first listed byte most significant, and it
lies within [0, 2^(8*len) - 1]; for 4-byte or wider groups the JS 32-bit
signed shift wraps (see the counterexample), so the spec formula and bound do
not hold there. -/
theorem combine_small_group_spec (l : List ℤ) (hlen : l.length ≤ 3)
    (hv : ∀ v ∈ l, 0 ≤ v ∧ v ≤ 255) :
    combineBytes l = specCombine l
  ∧ 0 ≤ combineBytes l ∧ combineBytes l ≤ 2 ^ (8 * l.length) - 1 := by
  rcases l with _ | ⟨a, _ | ⟨b, _ | ⟨c, _ | ⟨d, t⟩⟩⟩⟩
  · simp [combineBytes, combineAux, specCombine, specCombineAux]
  · obtain ⟨ha0, ha1⟩ := hv a (by simp)
    simp only [combineBytes, combineAux, specCombine, specCombineAux,
      List.length_cons, List.length_nil]
    norm_num
    rw [jsShl_b0 a ha0 ha1]
    omega
  · obtain ⟨ha0, ha1⟩ := hv a (by simp)
    obtain ⟨hb0, hb1⟩ := hv b (by simp)
    simp only [combineBytes, combineAux, specCombine, specCombineAux,
      List.length_cons, List.length_nil]
    norm_num
    rw [jsShl_b8 a ha0 ha1, jsShl_b0 b hb0 hb1]
    omega
  · obtain ⟨ha0, ha1⟩ := hv a (by simp)
    obtain ⟨hb0, hb1⟩ := hv b (by simp)
    obtain ⟨hc0, hc1⟩ := hv c (by simp)
    simp only [combineBytes, combineAux, specCombine, specCombineAux,
      List.length_cons, List.length_nil]
    norm_num
    rw [jsShl_b16 a ha0 ha1, jsShl_b8 b hb0 hb1, jsShl_b0 c hc0 hc1]
    omega
  · simp only [List.length_cons] at hlen
    omega

/-- C1 (witness): the two-byte group over values 0x12, 0x34 matches the spec
formula, in particular it equals 0x1234 = 4660 and fits the stated bound. -/
theorem combine_small_group_spec_witness :
    (combineBytes [18, 52] = specCombine [18, 52]
  ∧ 0 ≤ combineBytes [18, 52]
  ∧ combineBytes [18, 52] ≤ 2 ^ (8 * ([18, 52] : List ℤ).length) - 1)
  ∧ combineBytes [18, 52] = 4660 :=
  ⟨combine_small_group_spec [18, 52] (by decide) (by decide), by decide⟩

end ByteExplorer

namespace ByteExplorer

/-- Deduplicating a constant nonempty list leaves the single value. -/
theorem dedup_replicate (n : ℕ) (c : ℕ) (hn : n ≠ 0) :
    (List.replicate n c).dedup = [c] := by
  induction n with
  | zero => exact absurd rfl hn
  | succ m ih =>
    rw [List.replicate_succ]
    cases Nat.eq_zero_or_pos m with
    | inl h0 => subst h0; simp
    | inr hpos =>
      rw [List.dedup_cons_of_mem (List.mem_replicate.mpr ⟨by omega, rfl⟩)]
      exact ih (by omega)

/-- Sums of squares are nonnegative. -/
theorem devSumSq_nonneg (l : List ℝ) : 0 ≤ devSumSq l := by
  apply List.sum_nonneg
  intro x hx
  obtain ⟨y, _, rfl⟩ := List.mem_map.mp hx
  exact mul_self_nonneg y

/-- C5 (confirmed): `calculateEntropy` is the Shannon entropy of the
empirical distribution; a nonempty column with a single distinct value has
entropy exactly 0, and a column of N pairwise-distinct values has entropy
log2(N). -/
theorem entropy_spec (values : List ℕ) (hne : values ≠ []) :
    (∀ c, (∀ x ∈ values, x = c) → calculateEntropy values = 0)
  ∧ (values.Nodup → calculateEntropy values = Real.logb 2 values.length) := by
  have hn : values.length ≠ 0 := fun h => hne (List.length_eq_zero.mp h)
  constructor
  · intro c hc
    have hrep : values = List.replicate values.length c :=
      List.eq_replicate_length.mpr hc
    rw [hrep]
    unfold calculateEntropy
    rw [dedup_replicate _ _ hn]
    simp only [List.map_cons, List.map_nil, List.sum_cons, List.sum_nil,
      List.count_replicate_self, List.length_replicate]
    rw [div_self (Nat.cast_ne_zero.mpr hn), Real.logb_one]
    ring
  · intro hnd
    unfold calculateEntropy
    rw [List.dedup_eq_self.mpr hnd]
    have hsum := List.sum_eq_card_nsmul
      (values.map fun v =>
        ((values.count v : ℝ) / values.length) *
          Real.logb 2 ((values.count v : ℝ) / values.length))
      (((1 : ℝ) / values.length) * Real.logb 2 ((1 : ℝ) / values.length))
      (by
        intro x hx
        obtain ⟨v, hv, rfl⟩ := List.mem_map.mp hx
        rw [List.count_eq_one_of_mem hnd hv]
        norm_num)
    rw [List.length_map] at hsum
    rw [hsum, nsmul_eq_mul]
    have hn0 : (values.length : ℝ) ≠ 0 := Nat.cast_ne_zero.mpr hn
    rw [one_div, Real.logb_inv, mul_neg, mul_neg, neg_neg, ← mul_assoc,
      mul_inv_cancel₀ hn0, one_mul]

end ByteExplorer

namespace ByteExplorer

/-- C5 (witness): a constant column has entropy 0 and a 2-record column of
distinct values has entropy log2(2). -/
theorem entropy_spec_witness :
    calculateEntropy [7, 7, 7] = 0 ∧ calculateEntropy [3, 5] = Real.logb 2 2 := by
  refine ⟨(entropy_spec [7, 7, 7] (by decide)).1 7 (by decide), ?_⟩
  have h := (entropy_spec [3, 5] (by decide)).2 (by decide)
  simpa using h

/-- C4 (confirmed): `calculateCorrelation` equals the Pearson coefficient
covSum / sqrt(devSumSq * devSumSq) with the deliberate exact-zero fallback
when either deviation sum of squares vanishes; consequently a non-constant
column correlated with a copy of itself gives exactly 1 and correlation with
a constant column gives 0. -/
theorem correlation_spec (a1 a2 : List ℝ) (hlen : a1.length = a2.length)
    (hne : a1 ≠ []) :
    ((devSumSq a1 = 0 ∨ devSumSq a2 = 0) → calculateCorrelation a1 a2 = 0)
  ∧ (devSumSq a1 ≠ 0 → devSumSq a2 ≠ 0 →
      calculateCorrelation a1 a2
        = covSum a1 a2 / Real.sqrt (devSumSq a1 * devSumSq a2))
  ∧ (devSumSq a1 ≠ 0 → calculateCorrelation a1 a1 = 1)
  ∧ (∀ c, (∀ x ∈ a2, x = c) → calculateCorrelation a1 a2 = 0) := by
  refine ⟨?_, ?_, ?_, ?_⟩
  · intro h0
    unfold calculateCorrelation
    have hz : devSumSq a1 * devSumSq a2 = 0 := by
      rcases h0 with h | h <;> simp [h]
    rw [hz, Real.sqrt_zero, if_pos rfl]
  · intro h1 h2
    unfold calculateCorrelation
    rw [if_neg (ne_of_gt (Real.sqrt_pos.mpr (mul_pos
      (lt_of_le_of_ne (devSumSq_nonneg a1) (Ne.symm h1))
      (lt_of_le_of_ne (devSumSq_nonneg a2) (Ne.symm h2)))))]
  · intro h1
    unfold calculateCorrelation
    rw [Real.sqrt_mul_self (devSumSq_nonneg a1), if_neg h1]
    have hcov : covSum a1 a1 = devSumSq a1 := by
      unfold covSum devSumSq
      rw [List.zipWith_same]
    rw [hcov, div_self h1]
  · intro c hc
    have hl2 : a2.length ≠ 0 := by
      rw [← hlen]
      exact fun h => hne (List.length_eq_zero.mp h)
    have hmean : listMean a2 = c := by
      unfold listMean
      rw [List.sum_eq_card_nsmul a2 c hc, nsmul_eq_mul]
      field_simp
    have hdev : devSumSq a2 = 0 := by
      unfold devSumSq devs
      apply List.sum_eq_zero
      intro x hx
      simp only [List.map_map, List.mem_map, Function.comp] at hx
      obtain ⟨y, hy, rfl⟩ := hx
      rw [hc y hy, hmean]
      ring
    unfold calculateCorrelation
    rw [hdev, mul_zero, Real.sqrt_zero, if_pos rfl]

/-- C4 (witness): the strictly varying column [0,1] self-correlates to 1
and correlates to 0 against the constant column [5,5]. -/
theorem correlation_spec_witness :
    calculateCorrelation [(0 : ℝ), 1] [(0 : ℝ), 1] = 1
  ∧ calculateCorrelation [(0 : ℝ), 1] [(5 : ℝ), 5] = 0 := by
  have hdev : devSumSq [(0 : ℝ), 1] ≠ 0 := by
    unfold devSumSq devs listMean
    norm_num
  exact ⟨(correlation_spec [(0 : ℝ), 1] [(0 : ℝ), 1] rfl (by simp)).2.2.1 hdev,
    (correlation_spec [(0 : ℝ), 1] [(5 : ℝ), 5] rfl (by simp)).2.2.2 5
      (by intro x hx; simp only [List.mem_cons, List.mem_singleton] at hx
          rcases hx with h | h | h <;> simp_all)⟩

end ByteExplorer

namespace ByteExplorer

/-- Strictly sorted lists have no duplicates. -/
theorem strictSorted_nodup {l : List ℕ} (h : strictSorted l) : l.Nodup :=
  h.imp fun hab => ne_of_lt hab

/-- The branch of `createGroup` taken on a nonempty draft. -/
theorem createGroup_eq (st : SessionState) (hne : st.currentGroup ≠ []) :
    createGroup st = { st with
      byteGroups := st.byteGroups ++ [⟨st.byteGroups.length, st.currentGroup,
        "Group " ++ toString (st.byteGroups.length + 1)⟩]
      data := st.data.map fun r =>
        { r with groupCols := (upsert st.byteGroups.length
            (combineBytesO (st.currentGroup.map fun b => r.bytes.getD b none))
            r.groupCols) }
      currentGroup := []
      groupingMode := false } := by
  unfold createGroup
  rw [if_pos hne]

/-- Toggling preserves strict sortedness of the draft. -/
theorem strictSorted_toggleDraft (b : ℕ) (l : List ℕ) (h : strictSorted l) :
    strictSorted (toggleDraft b l) := by
  unfold toggleDraft
  split
  · exact List.Pairwise.sublist (List.filter_sublist _) h
  · next hnmem =>
    have hs : List.Sorted (· ≤ ·) (List.insertionSort (· ≤ ·) (l ++ [b])) :=
      List.sorted_insertionSort _ _
    have happ : (l ++ [b]).Nodup := by
      rw [List.nodup_append]
      exact ⟨strictSorted_nodup h, List.nodup_singleton b,
        by simpa [List.disjoint_singleton] using hnmem⟩
    have hnd : (List.insertionSort (· ≤ ·) (l ++ [b])).Nodup :=
      ((List.perm_insertionSort (· ≤ ·) (l ++ [b])).symm.nodup_iff).mp happ
    exact hs.lt_of_le hnd

/-- Membership after a toggle: symmetric difference with the toggled index. -/
theorem mem_toggleDraft (b x : ℕ) (l : List ℕ) :
    x ∈ toggleDraft b l ↔ ((x ∈ l ∧ x ≠ b) ∨ (x = b ∧ b ∉ l)) := by
  unfold toggleDraft
  split
  · next hmem =>
    simp only [List.mem_filter, bne_iff_ne, ne_eq]
    constructor
    · rintro ⟨hx, hne⟩
      exact Or.inl ⟨hx, hne⟩
    · rintro (⟨hx, hne⟩ | ⟨rfl, hb⟩)
      · exact ⟨hx, hne⟩
      · exact absurd hmem hb
  · next hnmem =>
    rw [(List.perm_insertionSort (· ≤ ·) (l ++ [b])).mem_iff]
    simp only [List.mem_append, List.mem_singleton]
    constructor
    · rintro (hx | rfl)
      · exact Or.inl ⟨hx, fun hxb => hnmem (hxb ▸ hx)⟩
      · exact Or.inr ⟨rfl, hnmem⟩
    · rintro (⟨hx, _⟩ | ⟨rfl, _⟩)
      · exact Or.inl hx
      · exact Or.inr rfl

/-- Unfolding one toggle from a toggle sequence. -/
theorem toggleSeq_cons (b : ℕ) (s l : List ℕ) :
    toggleSeq (b :: s) l = toggleSeq s (toggleDraft b l) := rfl

/-- Toggle sequences preserve strict sortedness. -/
theorem strictSorted_toggleSeq (s l : List ℕ) (h : strictSorted l) :
    strictSorted (toggleSeq s l) := by
  induction s generalizing l with
  | nil => exact h
  | cons b s ih => exact ih _ (strictSorted_toggleDraft b l h)

/-- Membership after a toggle sequence is determined by the starting list and
the parity of the number of toggles of each index. -/
theorem mem_toggleSeq (s l : List ℕ) (x : ℕ) :
    x ∈ toggleSeq s l
      ↔ ((x ∈ l ∧ Even (s.count x)) ∨ (x ∉ l ∧ Odd (s.count x))) := by
  induction s generalizing l with
  | nil => simp [toggleSeq]
  | cons b s ih =>
    rw [toggleSeq_cons, ih, mem_toggleDraft]
    by_cases hxb : x = b
    · subst hxb
      rw [List.count_cons_self]
      by_cases hxl : x ∈ l
      · simp [hxl, Nat.even_add_one, Nat.not_even_iff_odd]
      · simp [hxl, Nat.odd_add_one]
    · rw [List.count_cons_of_ne hxb]
      simp [hxb]

/-- Toggle sequences that are permutations of each other produce the same
draft from any strictly sorted starting draft. -/
theorem toggleSeq_perm_eq (s₁ s₂ l : List ℕ) (hp : s₁.Perm s₂)
    (h : strictSorted l) : toggleSeq s₁ l = toggleSeq s₂ l := by
  apply List.eq_of_perm_of_sorted ?_ (strictSorted_toggleSeq s₁ l h)
    (strictSorted_toggleSeq s₂ l h)
  apply (List.perm_ext_iff_of_nodup
    (strictSorted_nodup (strictSorted_toggleSeq s₁ l h))
    (strictSorted_nodup (strictSorted_toggleSeq s₂ l h))).mpr
  intro x
  rw [mem_toggleSeq, mem_toggleSeq, hp.count_eq]

/-- A toggle in grouping mode only rewrites the draft. -/
theorem toggleByte_grouping (b : ℕ) (st : SessionState)
    (h : st.groupingMode = true) :
    toggleByte b st = { st with currentGroup := toggleDraft b st.currentGroup } := by
  unfold toggleByte
  rw [if_pos h]

/-- In grouping mode a toggle sequence only rewrites the draft, by the
composite of the individual toggles. -/
theorem applyToggles_grouping (s : List ℕ) (st : SessionState)
    (h : st.groupingMode = true) :
    applyToggles s st = { st with currentGroup := toggleSeq s st.currentGroup } := by
  induction s generalizing st with
  | nil => rfl
  | cons b s ih =>
    show applyToggles s (toggleByte b st) = _
    rw [toggleByte_grouping b st h]
    exact ih _ h

end ByteExplorer

namespace ByteExplorer

/-- C10 (confirmed): every session operation keeps the grouping draft and all
committed groups' byte-index lists strictly increasing (sorted ascending, no
duplicates), and in grouping mode any two toggle sequences that are
permutations of each other produce identical states, so a reachable group's
derived value is independent of the order in which its bytes were toggled. -/
theorem draft_sorted_invariant (st : SessionState) (h : sessionInv st) :
    (∀ b, sessionInv (toggleByte b st))
  ∧ sessionInv (createGroup st)
  ∧ (∀ gid, sessionInv (removeGroup gid st))
  ∧ sessionInv (toggleGroupingMode st)
  ∧ (∀ input, sessionInv (processData input st))
  ∧ (st.groupingMode = true → ∀ s₁ s₂ : List ℕ, s₁.Perm s₂ →
      applyToggles s₁ st = applyToggles s₂ st) := by
  obtain ⟨hd, hg⟩ := h
  refine ⟨?_, ?_, ?_, ⟨hd, hg⟩, ?_, ?_⟩
  · intro b
    unfold toggleByte
    split
    · exact ⟨strictSorted_toggleDraft b _ hd, hg⟩
    · split
      · exact ⟨hd, hg⟩
      · exact ⟨hd, hg⟩
  · by_cases hne : st.currentGroup = []
    · unfold createGroup
      rw [if_neg (by simp [hne])]
      exact ⟨hd, hg⟩
    · rw [createGroup_eq st hne]
      refine ⟨List.sorted_nil, fun g hgm => ?_⟩
      simp only [List.mem_append, List.mem_singleton] at hgm
      rcases hgm with hgm | rfl
      · exact hg g hgm
      · exact hd
  · intro gid
    refine ⟨hd, fun g hgm => ?_⟩
    simp only [removeGroup, List.mem_filter] at hgm
    exact hg g hgm.1
  · intro input
    simp only [processData]
    split
    · exact ⟨hd, hg⟩
    · split
      · exact ⟨hd, hg⟩
      · exact ⟨hd, hg⟩
  · intro hmode s₁ s₂ hp
    rw [applyToggles_grouping s₁ st hmode, applyToggles_grouping s₂ st hmode,
      toggleSeq_perm_eq s₁ s₂ st.currentGroup hp hd]

/-- C10 (witness): from a fresh grouping-mode session a toggle keeps the
invariant and the toggle orders [2,1] and [1,2] produce identical states. -/
theorem draft_sorted_invariant_witness :
    sessionInv (toggleByte 3 stW10)
  ∧ applyToggles [2, 1] stW10 = applyToggles [1, 2] stW10 := by
  have h := draft_sorted_invariant stW10
    ⟨List.sorted_nil, fun g hg => absurd hg (List.not_mem_nil g)⟩
  exact ⟨h.1 3, h.2.2.2.2.2 rfl [2, 1] [1, 2] (List.Perm.swap 1 2 [])⟩

end ByteExplorer

namespace ByteExplorer

/-- Hex digits are not whitespace. -/
theorem not_whitespace_of_hex (c : Char) (h : isHexDigitB c = true) :
    ¬ c.isWhitespace = true := by
  intro hw
  have hw2 : (c = ' ' || c = '\t' || c = '\r' || c = '\n') = true := hw
  simp only [Bool.or_eq_true, decide_eq_true_eq] at hw2
  rcases hw2 with ((rfl | rfl) | rfl) | rfl <;> exact absurd h (by decide)

/-- A hex digit's value is at most 15. -/
theorem hexDigitVal_le (c : Char) (h : isHexDigitB c = true) :
    hexDigitVal c ≤ 15 := by
  simp only [isHexDigitB, Bool.or_eq_true, Bool.and_eq_true, decide_eq_true_eq] at h
  unfold hexDigitVal
  split_ifs <;> omega

/-- Number of 2-character slices of a line. -/
theorem chunk2_length : ∀ cs : List Char, (chunk2 cs).length = (cs.length + 1) / 2
  | [] => by simp [chunk2]
  | [c] => by simp [chunk2]
  | a :: b :: t => by
    simp only [chunk2, List.length_cons, chunk2_length t]
    omega

/-- Each slice is nonempty, at most 2 characters, drawn from the line. -/
theorem chunk2_mem : ∀ (cs ch : List Char), ch ∈ chunk2 cs →
    ch ≠ [] ∧ ch.length ≤ 2 ∧ ∀ c ∈ ch, c ∈ cs
  | [], ch => by simp [chunk2]
  | [c], ch => by
    intro hch
    simp only [chunk2, List.mem_singleton] at hch
    subst hch
    refine ⟨by simp, by simp, ?_⟩
    intro x hx
    simpa using hx
  | a :: b :: t, ch => by
    intro hch
    simp only [chunk2, List.mem_cons] at hch
    rcases hch with rfl | hch
    · refine ⟨by simp, by simp, ?_⟩
      intro c hc
      simp only [List.mem_cons, List.mem_singleton] at hc
      rcases hc with rfl | rfl | hc
      · exact List.mem_cons_self _ _
      · exact List.mem_cons_of_mem _ (List.mem_cons_self _ _)
      · simp at hc
    · obtain ⟨h1, h2, h3⟩ := chunk2_mem t ch hch
      exact ⟨h1, h2, fun c hc =>
        List.mem_cons_of_mem _ (List.mem_cons_of_mem _ (h3 c hc))⟩

/-- parseInt on a nonempty all-hex slice of at most 2 characters yields a
byte value. -/
theorem jsParseIntHex_hex (ch : List Char) (hne : ch ≠ []) (hlen : ch.length ≤ 2)
    (hhex : ∀ c ∈ ch, isHexDigitB c = true) :
    ∃ n, jsParseIntHex ch = some n ∧ n ≤ 255 := by
  rcases ch with _ | ⟨a, _ | ⟨b, t⟩⟩
  · exact absurd rfl hne
  · have ha := hhex a (by simp)
    refine ⟨hexDigitVal a, ?_, le_trans (hexDigitVal_le a ha) (by norm_num)⟩
    unfold jsParseIntHex
    rw [List.dropWhile_cons, if_neg (not_whitespace_of_hex a ha)]
    rw [List.takeWhile_cons, if_pos ha]
    simp
  · rcases t with _ | ⟨c, t⟩
    · have ha := hhex a (by simp)
      have hb := hhex b (by simp)
      refine ⟨16 * hexDigitVal a + hexDigitVal b, ?_, ?_⟩
      · unfold jsParseIntHex
        rw [List.dropWhile_cons, if_neg (not_whitespace_of_hex a ha)]
        rw [List.takeWhile_cons, if_pos ha, List.takeWhile_cons, if_pos hb]
        simp
      · have h1 := hexDigitVal_le a ha
        have h2 := hexDigitVal_le b hb
        omega
    · simp only [List.length_cons] at hlen
      omega

/-- The decoder produces ceil(len/2) bytes per line. -/
theorem decodeLine_length (cs : List Char) :
    (decodeLine cs).length = (cs.length + 1) / 2 := by
  unfold decodeLine
  rw [List.length_map, chunk2_length]

/-- On an all-hex line every decoded value is a byte in [0,255]. -/
theorem decodeLine_hex (cs : List Char) (hhex : ∀ c ∈ cs, isHexDigitB c = true) :
    ∀ v ∈ decodeLine cs, ∃ n, v = some n ∧ n ≤ 255 := by
  intro v hv
  unfold decodeLine at hv
  obtain ⟨ch, hch, rfl⟩ := List.mem_map.mp hv
  obtain ⟨h1, h2, h3⟩ := chunk2_mem cs ch hch
  obtain ⟨n, hn, hb⟩ := jsParseIntHex_hex ch h1 h2 (fun c hc => hhex c (h3 c hc))
  exact ⟨n, hn, hb⟩

/-- The records carry consecutive indices starting at the given offset. -/
theorem mkRecords_index (i : ℕ) (ls : List (List Char)) :
    (mkRecords i ls).map (fun r => r.index) = List.range' i ls.length := by
  induction ls generalizing i with
  | nil => simp [mkRecords]
  | cons l t ih =>
    rw [List.length_cons, List.range'_succ i t.length 1]
    simp only [mkRecords, List.map_cons, ih]

/-- Every decoded record's bytes come from one of the lines. -/
theorem mkRecords_mem (i : ℕ) (ls : List (List Char)) (r : RecordJS)
    (hr : r ∈ mkRecords i ls) : ∃ l ∈ ls, r.bytes = decodeLine l := by
  induction ls generalizing i with
  | nil => simp [mkRecords] at hr
  | cons l t ih =>
    simp only [mkRecords, List.mem_cons] at hr
    rcases hr with rfl | hr
    · exact ⟨l, by simp, rfl⟩
    · obtain ⟨l2, hl2, hb⟩ := ih _ hr
      exact ⟨l2, by simp [hl2], hb⟩

/-- The fields of the state produced by a successful decode. -/
theorem processData_success (input : List Char) (st : SessionState)
    (h : linesValidB (splitOnNl (jsTrim input)) = true) :
    (processData input st).data = mkRecords 0 (splitOnNl (jsTrim input))
  ∧ (processData input st).numBytesPerLine
      = ((mkRecords 0 (splitOnNl (jsTrim input))).headD ⟨0, [], []⟩).bytes.length
  ∧ (processData input st).error = none := by
  have hne := splitOnNl_ne_nil (jsTrim input)
  simp only [processData]
  split
  · next heq => exact absurd (List.length_eq_zero.mp heq) hne
  · exact ⟨rfl, rfl, rfl⟩

end ByteExplorer

namespace ByteExplorer

/-- C3 (amended): when decode succeeds AND no line carries surrounding
whitespace (each line equals its trimmed form - the condition the validator
actually enforces only up to trimming), every record has exactly
W = numBytesPerLine byte values, each of the form some n with n in [0,255],
and the records' indices are exactly the 0-based line positions. Without the
whitespace proviso the property fails (see the counterexample). -/
theorem decode_wellformed (input : List Char) (st : SessionState)
    (hval : linesValidB (splitOnNl (jsTrim input)) = true)
    (hraw : ∀ l ∈ splitOnNl (jsTrim input), jsTrim l = l) :
    (processData input st).error = none
  ∧ (processData input st).data.map (fun r => r.index)
      = List.range (splitOnNl (jsTrim input)).length
  ∧ ∀ r ∈ (processData input st).data,
      r.bytes.length = (processData input st).numBytesPerLine
    ∧ ∀ v ∈ r.bytes, ∃ n, v = some n ∧ n ≤ 255 := by
  obtain ⟨hdata, hnum, herr⟩ := processData_success input st hval
  have hne := splitOnNl_ne_nil (jsTrim input)
  obtain ⟨l0, rest, hlq⟩ := List.exists_cons_of_ne_nil hne
  rw [hlq] at hdata hnum hval hraw ⊢
  have hfacts : ∀ l ∈ l0 :: rest,
      l.length = l0.length ∧ ∀ c ∈ l, isHexDigitB c = true := by
    intro l hl
    have hall := List.all_eq_true.mp hval l hl
    rw [hraw l hl] at hall
    simp only [List.headD_cons, Bool.and_eq_true, beq_iff_eq, isHexLineB,
      Bool.not_eq_true', List.all_eq_true] at hall
    exact ⟨hall.1, hall.2.2⟩
  refine ⟨herr, ?_, ?_⟩
  · rw [hdata, mkRecords_index, List.range_eq_range']
  · intro r hr
    rw [hdata] at hr
    obtain ⟨l, hlmem, hb⟩ := mkRecords_mem 0 (l0 :: rest) r hr
    obtain ⟨hlen, hhex⟩ := hfacts l hlmem
    have hnum2 : (processData input st).numBytesPerLine = (l0.length + 1) / 2 := by
      rw [hnum]
      simp only [mkRecords, List.headD_cons]
      exact decodeLine_length l0
    constructor
    · rw [hb, decodeLine_length, hlen, hnum2]
    · intro v hv
      rw [hb] at hv
      exact decodeLine_hex l hhex v hv

end ByteExplorer

namespace ByteExplorer

/-- C3 (witness): decoding "0102\n0304" yields records indexed 0,1 with
exactly W = 2 byte values each, all in [0,255]. -/
theorem decode_wellformed_witness :
    (processData "0102\n0304".toList initState).error = none
  ∧ (processData "0102\n0304".toList initState).data.map (fun r => r.index)
      = List.range (splitOnNl (jsTrim "0102\n0304".toList)).length
  ∧ ∀ r ∈ (processData "0102\n0304".toList initState).data,
      r.bytes.length = (processData "0102\n0304".toList initState).numBytesPerLine
    ∧ ∀ v ∈ r.bytes, ∃ n, v = some n ∧ n ≤ 255 :=
  decode_wellformed _ _ (by decide) (by decide)

end ByteExplorer
